import Mathlib

/-!
Verification of the PII encryption / keyed-lookup subsystem of the
`nest-skeleton` backend (`src/library/core/providers/crypt/crypt.service.ts`).

The development shallowly embeds `CryptService` into Lean:

* JavaScript strings are Lean `String`s; `String.prototype.length` (UTF-16
  code units), `trim` and `toLowerCase` are embedded below.
* Node `Buffer`s are `List Nat` with every entry `< 256`.
* Base64 encoding/decoding (`Buffer.toString('base64')` /
  `Buffer.from(s, 'base64')`) is implemented concretely, including Node's
  lenient decoding that ignores non-alphabet characters and never throws.
* The external cryptographic primitives from `node:crypto` and `bcryptjs`
  (HKDF-SHA256, HMAC-SHA256, AES-256-GCM, bcrypt) are not repository code;
  they are modelled by concrete executable functions that keep exactly the
  interface structure the service relies on: determinism, key/nonce
  dependence, length of outputs, GCM's encrypt-then-MAC framing with an
  authentication tag recomputed from (key, iv, ciphertext) and checked
  before any plaintext is released, and collision-freeness of digests.
* Thrown `Error`s become `Except String` results carrying the exact
  message string of the source.
-/

/-- Characters removed by `String.prototype.trim` (ECMAScript WhiteSpace and
LineTerminator code points). -/
def jsIsWhitespace (c : Char) : Bool :=
  c.toNat = 9 ∨ c.toNat = 10 ∨ c.toNat = 11 ∨ c.toNat = 12 ∨ c.toNat = 13 ∨
  c.toNat = 32 ∨ c.toNat = 160 ∨ c.toNat = 0x1680 ∨
  (0x2000 ≤ c.toNat ∧ c.toNat ≤ 0x200A) ∨
  c.toNat = 0x2028 ∨ c.toNat = 0x2029 ∨ c.toNat = 0x202F ∨
  c.toNat = 0x205F ∨ c.toNat = 0x3000 ∨ c.toNat = 0xFEFF

/-- Embedding of `value.trim()`: drop leading and trailing JS whitespace. -/
def jsTrim (s : String) : String :=
  String.mk (((s.toList.dropWhile jsIsWhitespace).reverse.dropWhile jsIsWhitespace).reverse)

/-- Embedding of `String.prototype.toLowerCase` on one character; the model
covers the ASCII range (`A`-`Z`), which is the identity elsewhere for the
inputs exercised here. -/
def jsCharToLower (c : Char) : Char :=
  if 65 ≤ c.toNat ∧ c.toNat ≤ 90 then Char.ofNat (c.toNat + 32) else c

/-- Embedding of `value.toLowerCase()`. -/
def jsToLower (s : String) : String :=
  String.mk (s.toList.map jsCharToLower)

/-- The normalization `value.trim().toLowerCase()` applied by
`toIndexableData` and `toCipherData` before any cryptography. -/
def normalizeJs (s : String) : String :=
  jsToLower (jsTrim s)

/-- Embedding of the JavaScript `string.length` property: the number of
UTF-16 code units (astral code points count twice). -/
def jsLength (s : String) : Nat :=
  (s.toList.map (fun c => if c.toNat < 0x10000 then 1 else 2)).sum

/-- UTF-8 encoding of a single scalar value (`Buffer.from(str, 'utf8')`,
per character). -/
def utf8EncodeChar (c : Char) : List Nat :=
  let n := c.toNat
  if n < 0x80 then [n]
  else if n < 0x800 then [0xC0 + n / 64, 0x80 + n % 64]
  else if n < 0x10000 then [0xE0 + n / 4096, 0x80 + n / 64 % 64, 0x80 + n % 64]
  else [0xF0 + n / 262144, 0x80 + n / 4096 % 64, 0x80 + n / 64 % 64, 0x80 + n % 64]

/-- UTF-8 encoding of a character list. -/
def utf8EncodeList (l : List Char) : List Nat :=
  l.flatMap utf8EncodeChar

/-- Embedding of `Buffer.from(value, 'utf8')` on a whole string. -/
def utf8Encode (s : String) : List Nat :=
  utf8EncodeList s.toList

/-- State machine for UTF-8 decoding: `need` counts outstanding continuation
bytes, `acc` holds the partially assembled scalar value. -/
def utf8DecodeGo : Nat → Nat → List Nat → List Char
  | _, _, [] => []
  | 0, _, b :: rest =>
      if b < 0x80 then Char.ofNat b :: utf8DecodeGo 0 0 rest
      else if b < 0xE0 then utf8DecodeGo 1 (b - 0xC0) rest
      else if b < 0xF0 then utf8DecodeGo 2 (b - 0xE0) rest
      else utf8DecodeGo 3 (b - 0xF0) rest
  | 1, acc, b :: rest => Char.ofNat (acc * 64 + (b - 0x80)) :: utf8DecodeGo 0 0 rest
  | n + 2, acc, b :: rest => utf8DecodeGo (n + 1) (acc * 64 + (b - 0x80)) rest

/-- UTF-8 decoding (`buffer.toString('utf8')`); total, only its behaviour on
well-formed encodings matters to the service's reachable paths. -/
def utf8Decode (l : List Nat) : List Char :=
  utf8DecodeGo 0 0 l

theorem char_toNat_lt (c : Char) : c.toNat < 1114112 := by
  have h := c.valid
  simp only [Char.toNat] at *
  rcases h with h | h
  · omega
  · omega

theorem utf8EncodeChar_lt (c : Char) : ∀ b ∈ utf8EncodeChar c, b < 256 := by
  have hc := char_toNat_lt c
  simp only [utf8EncodeChar]
  split
  · intro b hb; simp at hb; omega
  · split
    · intro b hb; simp at hb; rcases hb with h | h <;> omega
    · split
      · intro b hb; simp at hb; rcases hb with h | h | h <;> omega
      · intro b hb; simp at hb; rcases hb with h | h | h | h <;> omega

theorem utf8EncodeList_cons (c : Char) (cs : List Char) :
    utf8EncodeList (c :: cs) = utf8EncodeChar c ++ utf8EncodeList cs := by
  simp [utf8EncodeList]

theorem utf8Decode_encodeChar (c : Char) (rest : List Nat) :
    utf8DecodeGo 0 0 (utf8EncodeChar c ++ rest) = c :: utf8DecodeGo 0 0 rest := by
  have hc := char_toNat_lt c
  simp only [utf8EncodeChar]
  split
  · next h =>
    simp only [List.cons_append, List.nil_append, utf8DecodeGo]
    rw [if_pos h, Char.ofNat_toNat]
    rfl
  · next h1 =>
    split
    · next h2 =>
      simp only [List.cons_append, List.nil_append, utf8DecodeGo]
      rw [if_neg (by omega), if_pos (by omega)]
      have e1 : (0xC0 + c.toNat / 64 - 0xC0) * 64 + (0x80 + c.toNat % 64 - 0x80) = c.toNat := by
        omega
      rw [e1, Char.ofNat_toNat]
      rfl
    · split
      · next h3 =>
        simp only [List.cons_append, List.nil_append, utf8DecodeGo]
        rw [if_neg (by omega), if_neg (by omega), if_pos (by omega)]
        have e1 : (0xE0 + c.toNat / 4096 - 0xE0) * 64 + (0x80 + c.toNat / 64 % 64 - 0x80) =
            c.toNat / 64 := by omega
        rw [e1]
        have e2 : c.toNat / 64 * 64 + (0x80 + c.toNat % 64 - 0x80) = c.toNat := by omega
        rw [e2, Char.ofNat_toNat]
        rfl
      · next h3 =>
        simp only [List.cons_append, List.nil_append, utf8DecodeGo]
        rw [if_neg (by omega), if_neg (by omega), if_neg (by omega)]
        have e1 : (0xF0 + c.toNat / 262144 - 0xF0) * 64 + (0x80 + c.toNat / 4096 % 64 - 0x80) =
            c.toNat / 4096 := by omega
        rw [e1]
        have e2 : c.toNat / 4096 * 64 + (0x80 + c.toNat / 64 % 64 - 0x80) = c.toNat / 64 := by
          omega
        rw [e2]
        have e3 : c.toNat / 64 * 64 + (0x80 + c.toNat % 64 - 0x80) = c.toNat := by omega
        rw [e3, Char.ofNat_toNat]
        rfl

theorem utf8Decode_encodeList (l : List Char) :
    utf8Decode (utf8EncodeList l) = l := by
  induction l with
  | nil => rfl
  | cons c cs ih =>
      rw [utf8EncodeList_cons, utf8Decode, utf8Decode_encodeChar]
      rw [show utf8DecodeGo 0 0 (utf8EncodeList cs) = utf8Decode (utf8EncodeList cs) from rfl, ih]

theorem utf8Decode_encode (s : String) :
    String.mk (utf8Decode (utf8Encode s)) = s := by
  rw [utf8Encode, utf8Decode_encodeList]
  rfl

theorem utf8Encode_injective (s t : String) (h : utf8Encode s = utf8Encode t) : s = t := by
  have := utf8Decode_encode s
  rw [h, utf8Decode_encode] at this
  exact this.symm

theorem utf8EncodeList_lt (l : List Char) : ∀ b ∈ utf8EncodeList l, b < 256 := by
  intro b hb
  simp only [utf8EncodeList, List.mem_flatMap] at hb
  obtain ⟨c, _, hc⟩ := hb
  exact utf8EncodeChar_lt c b hc

/-- Lower-case hexadecimal digit for a value below 16 (`digest('hex')`,
`toString('hex')`). -/
def hexDigitChar (n : Nat) : Char :=
  if n < 10 then Char.ofNat (48 + n) else Char.ofNat (87 + n)

/-- Hexadecimal rendering of a byte list, two digits per byte. -/
def hexOfBytes : List Nat → List Char
  | [] => []
  | b :: rest => hexDigitChar (b / 16) :: hexDigitChar (b % 16) :: hexOfBytes rest

/-- Value of a hexadecimal digit character, 0 for anything else (total). -/
def hexValOfChar (c : Char) : Nat :=
  if 48 ≤ c.toNat ∧ c.toNat ≤ 57 then c.toNat - 48
  else if 97 ≤ c.toNat ∧ c.toNat ≤ 102 then c.toNat - 87
  else 0

/-- Parse hexadecimal digit pairs back into bytes. -/
def bytesOfHex : List Char → List Nat
  | [] => []
  | [_] => []
  | c1 :: c2 :: rest => (hexValOfChar c1 * 16 + hexValOfChar c2) :: bytesOfHex rest

theorem hexValOfChar_hexDigitChar (n : Nat) (h : n < 16) :
    hexValOfChar (hexDigitChar n) = n := by
  interval_cases n <;> decide

theorem bytesOfHex_hexOfBytes : ∀ l : List Nat, (∀ b ∈ l, b < 256) →
    bytesOfHex (hexOfBytes l) = l
  | [], _ => rfl
  | b :: rest, h => by
      have hb : b < 256 := h b (by simp)
      simp only [hexOfBytes, bytesOfHex]
      rw [hexValOfChar_hexDigitChar _ (by omega), hexValOfChar_hexDigitChar _ (by omega)]
      rw [bytesOfHex_hexOfBytes rest (fun x hx => h x (by simp [hx]))]
      congr 1
      omega

theorem hexOfBytes_injOn (l1 l2 : List Nat) (h1 : ∀ b ∈ l1, b < 256)
    (h2 : ∀ b ∈ l2, b < 256) (h : hexOfBytes l1 = hexOfBytes l2) : l1 = l2 := by
  have := bytesOfHex_hexOfBytes l1 h1
  rw [h, bytesOfHex_hexOfBytes l2 h2] at this
  exact this.symm

theorem hexOfBytes_length : ∀ l : List Nat, (hexOfBytes l).length = 2 * l.length
  | [] => rfl
  | _ :: rest => by
      simp only [hexOfBytes, List.length_cons, hexOfBytes_length rest]
      omega

theorem hexDigitChar_ne_dollar (n : Nat) (h : n < 16) : hexDigitChar n ≠ '$' := by
  interval_cases n <;> decide

theorem hexOfBytes_ne_dollar (l : List Nat) (hl : ∀ b ∈ l, b < 256) :
    ∀ c ∈ hexOfBytes l, c ≠ '$' := by
  induction l with
  | nil => intro c hc; simp [hexOfBytes] at hc
  | cons b rest ih =>
      intro c hc
      simp only [hexOfBytes, List.mem_cons] at hc
      have hb : b < 256 := hl b (by simp)
      rcases hc with h | h | h
      · rw [h]; exact hexDigitChar_ne_dollar _ (by omega)
      · rw [h]; exact hexDigitChar_ne_dollar _ (by omega)
      · exact ih (fun x hx => hl x (by simp [hx])) c h

/-- Character of the standard base64 alphabet at a sextet value. -/
def b64Chr (s : Nat) : Char :=
  if s < 26 then Char.ofNat (65 + s)
  else if s < 52 then Char.ofNat (97 + s - 26)
  else if s < 62 then Char.ofNat (48 + s - 52)
  else if s = 62 then '+' else '/'

/-- Sextet value of a base64 alphabet character; `none` for everything else
(`=` padding and foreign characters), mirroring Node's lenient decoder which
skips characters outside the alphabet. -/
def b64Val (c : Char) : Option Nat :=
  if 65 ≤ c.toNat ∧ c.toNat ≤ 90 then some (c.toNat - 65)
  else if 97 ≤ c.toNat ∧ c.toNat ≤ 122 then some (c.toNat - 97 + 26)
  else if 48 ≤ c.toNat ∧ c.toNat ≤ 57 then some (c.toNat - 48 + 52)
  else if c = '+' then some 62
  else if c = '/' then some 63
  else none

/-- Pack bytes into base64 sextets, three bytes to four sextets, with the
standard shortened final group. -/
def b64Sextets : List Nat → List Nat
  | [] => []
  | [a] => [a / 4, a % 4 * 16]
  | [a, b] => [a / 4, a % 4 * 16 + b / 16, b % 16 * 4]
  | a :: b :: c :: rest =>
      a / 4 :: (a % 4 * 16 + b / 16) :: (b % 16 * 4 + c / 64) :: c % 64 :: b64Sextets rest

/-- Unpack base64 sextets into bytes, four sextets to three bytes, tolerating
a shortened final group. -/
def b64Unsextets : List Nat → List Nat
  | [] => []
  | [_] => []
  | [s1, s2] => [s1 * 4 + s2 / 16]
  | [s1, s2, s3] => [s1 * 4 + s2 / 16, s2 % 16 * 16 + s3 / 4]
  | s1 :: s2 :: s3 :: s4 :: rest =>
      (s1 * 4 + s2 / 16) :: (s2 % 16 * 16 + s3 / 4) :: (s3 % 4 * 64 + s4) :: b64Unsextets rest

/-- Padding characters appended by the encoder for a payload of `n` bytes. -/
def b64Pad (n : Nat) : List Char :=
  if n % 3 = 1 then ['=', '='] else if n % 3 = 2 then ['='] else []

/-- Embedding of `buffer.toString('base64')`. -/
def base64Encode (l : List Nat) : String :=
  String.mk ((b64Sextets l).map b64Chr ++ b64Pad l.length)

/-- Embedding of `Buffer.from(s, 'base64')`: total and lenient — characters
outside the alphabet (including `=`) are skipped, a dangling final sextet is
dropped, and no input ever raises. -/
def base64Decode (s : String) : List Nat :=
  b64Unsextets (s.toList.filterMap b64Val)

theorem b64Val_b64Chr_fin : ∀ s : Fin 64, b64Val (b64Chr s.val) = some s.val := by decide

theorem b64Val_b64Chr (s : Nat) (h : s < 64) : b64Val (b64Chr s) = some s :=
  b64Val_b64Chr_fin ⟨s, h⟩

theorem b64Val_eq_char : b64Val '=' = none := by decide

theorem b64Sextets_lt : ∀ l : List Nat, (∀ b ∈ l, b < 256) → ∀ s ∈ b64Sextets l, s < 64
  | [], _ => by intro s hs; simp [b64Sextets] at hs
  | [a], h => by
      intro s hs
      have ha : a < 256 := h a (by simp)
      simp [b64Sextets] at hs
      rcases hs with h1 | h1 <;> omega
  | [a, b], h => by
      intro s hs
      have ha : a < 256 := h a (by simp)
      have hb : b < 256 := h b (by simp)
      simp [b64Sextets] at hs
      rcases hs with h1 | h1 | h1 <;> omega
  | a :: b :: c :: rest, h => by
      intro s hs
      have ha : a < 256 := h a (by simp)
      have hb : b < 256 := h b (by simp)
      have hc : c < 256 := h c (by simp)
      simp only [b64Sextets, List.mem_cons] at hs
      rcases hs with h1 | h1 | h1 | h1 | h1
      · omega
      · omega
      · omega
      · omega
      · exact b64Sextets_lt rest (fun x hx => h x (by simp [hx])) s h1

theorem filterMap_b64Chr (l : List Nat) (h : ∀ s ∈ l, s < 64) :
    (l.map b64Chr).filterMap b64Val = l := by
  induction l with
  | nil => rfl
  | cons s rest ih =>
      simp only [List.map_cons, List.filterMap_cons]
      rw [b64Val_b64Chr s (h s (by simp))]
      rw [ih (fun x hx => h x (by simp [hx]))]

theorem filterMap_b64Pad (n : Nat) : (b64Pad n).filterMap b64Val = [] := by
  simp only [b64Pad]
  split
  · decide
  · split
    · decide
    · decide

theorem b64Unsextets_b64Sextets : ∀ l : List Nat, (∀ b ∈ l, b < 256) →
    b64Unsextets (b64Sextets l) = l
  | [], _ => rfl
  | [a], h => by
      have ha : a < 256 := h a (by simp)
      simp only [b64Sextets, b64Unsextets]
      congr 1
      omega
  | [a, b], h => by
      have ha : a < 256 := h a (by simp)
      have hb : b < 256 := h b (by simp)
      simp only [b64Sextets, b64Unsextets]
      congr 1
      · omega
      · congr 1
        omega
  | a :: b :: c :: rest, h => by
      have ha : a < 256 := h a (by simp)
      have hb : b < 256 := h b (by simp)
      have hc : c < 256 := h c (by simp)
      simp only [b64Sextets, b64Unsextets]
      congr 1
      · omega
      · congr 1
        · omega
        · congr 1
          · omega
          · exact b64Unsextets_b64Sextets rest (fun x hx => h x (by simp [hx]))

theorem base64Decode_encode (l : List Nat) (h : ∀ b ∈ l, b < 256) :
    base64Decode (base64Encode l) = l := by
  simp only [base64Decode, base64Encode]
  rw [show (String.mk ((b64Sextets l).map b64Chr ++ b64Pad l.length)).toList =
    (b64Sextets l).map b64Chr ++ b64Pad l.length from rfl]
  rw [List.filterMap_append, filterMap_b64Chr _ (b64Sextets_lt l h), filterMap_b64Pad,
    List.append_nil]
  exact b64Unsextets_b64Sextets l h

theorem base64Encode_injOn (l1 l2 : List Nat) (h1 : ∀ b ∈ l1, b < 256)
    (h2 : ∀ b ∈ l2, b < 256) (h : base64Encode l1 = base64Encode l2) : l1 = l2 := by
  have := base64Decode_encode l1 h1
  rw [h, base64Decode_encode l2 h2] at this
  exact this.symm

/-- Deterministic mixing step used by the concrete models of the
`node:crypto` primitives. -/
def mixStep (a b : Nat) : Nat :=
  (a * 6364136223846793005 + b * 1442695040888963407 + 1013904223) % 2305843009213693951

/-- Fold a byte list into the running mix state. -/
def mixList (seed : Nat) (l : List Nat) : Nat :=
  l.foldl mixStep seed

/-- Model of `hkdfSync('sha256', ikm, salt, info, 32)`: a deterministic
function of (ikm, salt, info) producing 32 bytes. -/
def hkdfModel (ikm salt info : List Nat) : List Nat :=
  let seed := mixList (mixList (mixList 2 ikm) salt) info
  (List.range 32).map (fun i => mixStep seed i % 256)

/-- Model of `createHmac('sha256', key).update(msg).digest('hex')`: a
deterministic keyed digest rendered as 64 hex characters. -/
def hmacHexModel (key msg : List Nat) : String :=
  let seed := mixStep (mixList (mixList 3 key) msg) msg.length
  String.mk (hexOfBytes ((List.range 32).map (fun i => mixStep seed i % 256)))

/-- Keystream byte `i` of the modelled AES-256-GCM cipher for a given key
and nonce. -/
def gcmKsByte (key iv : List Nat) (i : Nat) : Nat :=
  mixStep (mixList (mixList 5 key) iv) i % 256

/-- Modelled GCM encryption of a byte stream (`cipher.update ‖ cipher.final`):
byte-wise combination with a (key, iv)-determined keystream, length
preserving. -/
def gcmEncBytes (key iv : List Nat) : Nat → List Nat → List Nat
  | _, [] => []
  | i, b :: rest => (b + gcmKsByte key iv i) % 256 :: gcmEncBytes key iv (i + 1) rest

/-- Modelled GCM decryption of a byte stream (inverse keystream
combination). -/
def gcmDecBytes (key iv : List Nat) : Nat → List Nat → List Nat
  | _, [] => []
  | i, b :: rest => (b + 256 - gcmKsByte key iv i) % 256 :: gcmDecBytes key iv (i + 1) rest

/-- Modelled 16-byte GCM authentication tag (`cipher.getAuthTag()`): a
deterministic function of (key, iv, ciphertext); its first byte absorbs the
byte sum of the ciphertext so that any single-byte change of the ciphertext
changes the tag, matching GHASH's detection of byte flips. -/
def gcmTagModel (key iv ct : List Nat) : List Nat :=
  (ct.sum + ct.length + mixList 7 (key ++ iv)) % 256 ::
    (List.range 15).map (fun j => mixStep (mixList 11 (key ++ iv)) j % 256)

/-- Modelled GCM open operation (`decipher.setAuthTag`, `decipher.update`,
`decipher.final`): the expected tag is recomputed from (key, iv, ciphertext)
and compared; on mismatch `final()` throws, so no plaintext is released. -/
def gcmDecrypt (key iv tag ct : List Nat) : Option (List Nat) :=
  if tag = gcmTagModel key iv ct then some (gcmDecBytes key iv 0 ct) else none

theorem gcmKsByte_lt (key iv : List Nat) (i : Nat) : gcmKsByte key iv i < 256 := by
  simp only [gcmKsByte]
  omega

theorem gcmDecBytes_encBytes (key iv : List Nat) :
    ∀ (i : Nat) (l : List Nat), (∀ b ∈ l, b < 256) →
      gcmDecBytes key iv i (gcmEncBytes key iv i l) = l
  | _, [], _ => rfl
  | i, b :: rest, h => by
      have hb : b < 256 := h b (by simp)
      have hk := gcmKsByte_lt key iv i
      simp only [gcmEncBytes, gcmDecBytes]
      rw [gcmDecBytes_encBytes key iv (i + 1) rest (fun x hx => h x (by simp [hx]))]
      have e1 : ((b + gcmKsByte key iv i) % 256 + 256 - gcmKsByte key iv i) % 256 = b := by
        omega
      rw [e1]

theorem gcmEncBytes_lt (key iv : List Nat) :
    ∀ (i : Nat) (l : List Nat), ∀ b ∈ gcmEncBytes key iv i l, b < 256
  | _, [] => by intro b hb; simp [gcmEncBytes] at hb
  | i, x :: rest => by
      intro b hb
      simp only [gcmEncBytes, List.mem_cons] at hb
      rcases hb with h | h
      · omega
      · exact gcmEncBytes_lt key iv (i + 1) rest b h

theorem gcmEncBytes_length (key iv : List Nat) :
    ∀ (i : Nat) (l : List Nat), (gcmEncBytes key iv i l).length = l.length
  | _, [] => rfl
  | i, x :: rest => by
      simp only [gcmEncBytes, List.length_cons, gcmEncBytes_length key iv (i + 1) rest]

theorem gcmTagModel_length (key iv ct : List Nat) : (gcmTagModel key iv ct).length = 16 := by
  simp [gcmTagModel]

theorem gcmTagModel_lt (key iv ct : List Nat) : ∀ b ∈ gcmTagModel key iv ct, b < 256 := by
  intro b hb
  simp only [gcmTagModel, List.mem_cons, List.mem_map, List.mem_range] at hb
  rcases hb with h | ⟨j, _, h⟩
  · omega
  · omega

/-- Configuration held by `CryptService` after `ConfigService` injection:
the four secret buffers are hex-decoded byte buffers (`ValidatedEnv`), the
work factor and active PII key version are JavaScript numbers. -/
structure CryptConfig where
  MASTER_KEY : List Nat
  DERIVE_KEY : List Nat
  SALT_ROUND : Int
  PII_SECRET : List Nat
  PII_ACTIVE : Int
  HMAC_SECRET : List Nat

/-- Embedding of `CryptService.derive32`:
`hkdfSync('sha256', MASTER_KEY, DERIVE_KEY, value, 32)`. -/
def derive32 (cfg : CryptConfig) (value : List Nat) : List Nat :=
  hkdfModel cfg.MASTER_KEY cfg.DERIVE_KEY value

/-- Embedding of `CryptService.getPiiKey(version)`: HKDF over
`PII_SECRET ‖ utf8(version.toString())`. The `keyCache` memoization of the
source is behaviourally transparent (pure function of fixed inputs) and is
therefore not part of the model. -/
def getPiiKey (cfg : CryptConfig) (version : Int) : List Nat :=
  derive32 cfg (cfg.PII_SECRET ++ utf8Encode (toString version))

/-- Embedding of `CryptService.getHmacKey()`: HKDF over `HMAC_SECRET`
alone — no version component enters the info material. -/
def getHmacKey (cfg : CryptConfig) : List Nat :=
  derive32 cfg cfg.HMAC_SECRET

/-- Embedding of `CryptService.toIndexableData`: length guard, trim and
lower-case, then HMAC-SHA256 under the HMAC purpose key, hex encoded. -/
def toIndexableData (cfg : CryptConfig) (value : String) : Except String String :=
  if jsLength value > 10000 then .error "Input exceeds maximum allowed length"
  else .ok (hmacHexModel (getHmacKey cfg) (utf8Encode (normalizeJs value)))

/-- Embedding of `CryptService.toCipherData`. The fresh 12-byte nonce drawn
by `randomBytes(this.IV_LEN)` is passed explicitly. The envelope is
`[PII_ACTIVE & 0xff] ‖ iv ‖ tag ‖ ciphertext`, base64 encoded. -/
def toCipherData (cfg : CryptConfig) (nonce : List Nat) (value : String) :
    Except String String :=
  if jsLength value > 10000 then .error "Input exceeds maximum allowed length"
  else
    let v := normalizeJs value
    let key := getPiiKey cfg cfg.PII_ACTIVE
    let encrypted := gcmEncBytes key nonce 0 (utf8Encode v)
    let tag := gcmTagModel key nonce encrypted
    let level := (cfg.PII_ACTIVE % 256).toNat
    .ok (base64Encode (level :: nonce ++ tag ++ encrypted))

/-- Embedding of `CryptService.fromCipherData`: base64 decode (lenient,
never throws), minimum length check `1 + IV_LEN + IV_TAG_LEN = 29` with its
own `'Invalid cipher data'` error, then version-byte key selection and
authenticated decryption inside a try/catch that collapses every decryption
failure into `'Failed to decrypt data'`. -/
def fromCipherData (cfg : CryptConfig) (cipher : String) : Except String String :=
  let cipherBuffer := base64Decode cipher
  if cipherBuffer.length < 29 then .error "Invalid cipher data"
  else
    let level := cipherBuffer.headD 0
    let iv := (cipherBuffer.drop 1).take 12
    let tag := (cipherBuffer.drop 13).take 16
    let encrypted := cipherBuffer.drop 29
    let key := getPiiKey cfg (Int.ofNat level)
    match gcmDecrypt key iv tag encrypted with
    | some pt => .ok (String.mk (utf8Decode pt))
    | none => .error "Failed to decrypt data"

/-- Buffer check of `CryptService.validateHexBuffer`: empty or all-zero
buffers are rejected. -/
def validateHexBuffer (buffer : List Nat) (name : String) : Except String Unit :=
  if buffer.length = 0 ∨ buffer.all (fun byte => byte == 0) then
    .error (name ++ " appears to be invalid hex")
  else .ok ()

/-- Embedding of `CryptService.validation`, run by the constructor before
any operation is reachable; the order and messages follow the source
(`Number.isInteger` is identically true on the `Int`-embedded fields). -/
def validation (cfg : CryptConfig) : Except String Unit :=
  if cfg.SALT_ROUND < 10 then .error "SALT_ROUND must be an integer >= 10"
  else if cfg.PII_ACTIVE < 1 ∨ 255 < cfg.PII_ACTIVE then
    .error "PII_ACTIVE must be an integer between 1 and 255"
  else if cfg.MASTER_KEY.length < 16 then
    .error "MASTER_KEY must be at least 16 bytes (32 hex characters)"
  else if cfg.DERIVE_KEY.length = 0 then .error "DERIVE_KEY is required"
  else if cfg.PII_SECRET.length < 8 then
    .error "PII_SECRET must be at least 8 bytes (16 hex characters)"
  else if cfg.HMAC_SECRET.length < 8 then
    .error "HMAC_SECRET must be at least 8 bytes (16 hex characters)"
  else
    match validateHexBuffer cfg.MASTER_KEY "MASTER_KEY" with
    | .error e => .error e
    | .ok _ =>
      match validateHexBuffer cfg.DERIVE_KEY "DERIVE_KEY" with
      | .error e => .error e
      | .ok _ =>
        match validateHexBuffer cfg.PII_SECRET "PII_SECRET" with
        | .error e => .error e
        | .ok _ =>
          match validateHexBuffer cfg.HMAC_SECRET "HMAC_SECRET" with
          | .error e => .error e
          | .ok _ => .ok ()

/-- Split a character list at `$` separators (used to parse the modelled
bcrypt hash format `$2b$<cost>$<salt>$<digest>`). -/
def splitDollars : List Char → List (List Char)
  | [] => [[]]
  | c :: rest =>
      if c = '$' then [] :: splitDollars rest
      else
        match splitDollars rest with
        | [] => [[c]]
        | g :: gs => (c :: g) :: gs

/-- Modelled `bcrypt.hash(password, SALT_ROUND)` with the fresh 16-byte salt
drawn by bcryptjs passed explicitly: `$2b$` prefix, cost byte, salt and a
salted digest of the password, all hex rendered. The digest is modelled as a
collision-free function of (salt, password) — the idealization of bcrypt's
one-way function that the repository relies on; one-wayness itself is not a
computable property and no claim needs it. -/
def bcryptHashString (cost : Int) (salt : List Nat) (password : String) : String :=
  String.mk ('$' :: '2' :: 'b' :: '$' :: hexOfBytes [(cost % 256).toNat] ++
    '$' :: hexOfBytes salt ++
    '$' :: hexOfBytes (salt ++ 36 :: utf8Encode password))

/-- Modelled `bcrypt.compare(password, salted)`: parse the stored string,
recompute the digest for `password` under the stored salt and compare; a
pure total comparison that returns `false` on any mismatch or malformed
input and never throws. -/
def bcryptCompare (password : String) (salted : String) : Bool :=
  match splitDollars salted.toList with
  | [[], ['2', 'b'], _, saltHex, digest] =>
      digest == hexOfBytes (bytesOfHex saltHex ++ 36 :: utf8Encode password)
  | _ => false

/-- Embedding of `CryptService.toHash`: `bcrypt.hash(password,
this.SALT_ROUND)` with the fresh salt explicit; the promise always
resolves — there is no length guard on this path. -/
def toHash (cfg : CryptConfig) (salt : List Nat) (password : String) :
    Except String String :=
  .ok (bcryptHashString cfg.SALT_ROUND salt password)

/-- Embedding of `CryptService.compareHash`: `bcrypt.compare` never rejects,
it resolves with a boolean. -/
def compareHash (password : String) (salted : String) : Except String Bool :=
  .ok (bcryptCompare password salted)

theorem splitDollars_append_of_no_dollar (a : List Char) (r : List Char)
    (ha : ∀ c ∈ a, c ≠ '$') :
    splitDollars (a ++ '$' :: r) = a :: splitDollars r := by
  induction a with
  | nil => simp [splitDollars]
  | cons c cs ih =>
      have hc : c ≠ '$' := ha c (by simp)
      simp only [List.cons_append, splitDollars, if_neg hc]
      rw [show cs.append ('$' :: r) = cs ++ '$' :: r from rfl]
      rw [ih (fun x hx => ha x (by simp [hx]))]

theorem splitDollars_no_dollar (l : List Char) (hl : ∀ c ∈ l, c ≠ '$') :
    splitDollars l = [l] := by
  induction l with
  | nil => rfl
  | cons c cs ih =>
      have hc : c ≠ '$' := hl c (by simp)
      simp only [splitDollars, if_neg hc]
      rw [ih (fun x hx => hl x (by simp [hx]))]

theorem int_mod256_toNat_lt (cost : Int) : (cost % 256).toNat < 256 := by omega

theorem bcrypt_salt_sep_lt (salt : List Nat) (password : String)
    (hs : ∀ b ∈ salt, b < 256) :
    ∀ b ∈ salt ++ 36 :: utf8Encode password, b < 256 := by
  intro b hb
  simp only [List.mem_append, List.mem_cons] at hb
  rcases hb with h | h | h
  · exact hs b h
  · omega
  · exact utf8EncodeList_lt _ b h

theorem splitDollars_bcryptHashString (cost : Int) (salt : List Nat) (password : String)
    (hs : ∀ b ∈ salt, b < 256) :
    splitDollars (bcryptHashString cost salt password).toList =
      [[], ['2', 'b'], hexOfBytes [(cost % 256).toNat], hexOfBytes salt,
        hexOfBytes (salt ++ 36 :: utf8Encode password)] := by
  have hcost : ∀ b ∈ [(cost % 256).toNat], b < 256 := by
    intro b hb; simp at hb; subst hb; exact int_mod256_toNat_lt cost
  have hdig := bcrypt_salt_sep_lt salt password hs
  rw [show (bcryptHashString cost salt password).toList =
    '$' :: '2' :: 'b' :: '$' :: hexOfBytes [(cost % 256).toNat] ++
      '$' :: hexOfBytes salt ++ '$' :: hexOfBytes (salt ++ 36 :: utf8Encode password)
    from rfl]
  rw [show ('$' :: '2' :: 'b' :: '$' :: hexOfBytes [(cost % 256).toNat] ++
      '$' :: hexOfBytes salt ++ '$' :: hexOfBytes (salt ++ 36 :: utf8Encode password) :
      List Char) =
    '$' :: (['2', 'b'] ++ '$' :: (hexOfBytes [(cost % 256).toNat] ++
      '$' :: (hexOfBytes salt ++ '$' :: hexOfBytes (salt ++ 36 :: utf8Encode password))))
    from by simp]
  rw [show splitDollars ('$' :: (['2', 'b'] ++ '$' :: (hexOfBytes [(cost % 256).toNat] ++
      '$' :: (hexOfBytes salt ++ '$' :: hexOfBytes (salt ++ 36 :: utf8Encode password))))) =
    [] :: splitDollars (['2', 'b'] ++ '$' :: (hexOfBytes [(cost % 256).toNat] ++
      '$' :: (hexOfBytes salt ++ '$' :: hexOfBytes (salt ++ 36 :: utf8Encode password))))
    from by simp [splitDollars]]
  rw [splitDollars_append_of_no_dollar _ _ (by decide)]
  rw [splitDollars_append_of_no_dollar _ _ (hexOfBytes_ne_dollar _ hcost)]
  rw [splitDollars_append_of_no_dollar _ _ (hexOfBytes_ne_dollar _ hs)]
  rw [splitDollars_no_dollar _ (hexOfBytes_ne_dollar _ hdig)]

theorem bcryptCompare_correct (cost : Int) (salt : List Nat) (password : String)
    (hs : ∀ b ∈ salt, b < 256) :
    bcryptCompare password (bcryptHashString cost salt password) = true := by
  simp only [bcryptCompare]
  rw [splitDollars_bcryptHashString cost salt password hs]
  simp only [bytesOfHex_hexOfBytes salt hs, beq_self_eq_true]

theorem bcryptCompare_wrong (cost : Int) (salt : List Nat) (p q : String)
    (hs : ∀ b ∈ salt, b < 256) (hne : q ≠ p) :
    bcryptCompare q (bcryptHashString cost salt p) = false := by
  simp only [bcryptCompare]
  rw [splitDollars_bcryptHashString cost salt p hs]
  simp only [bytesOfHex_hexOfBytes salt hs]
  rw [beq_eq_false_iff_ne]
  intro h
  apply hne
  have h2 := hexOfBytes_injOn _ _ (bcrypt_salt_sep_lt salt p hs)
    (bcrypt_salt_sep_lt salt q hs) h
  have h3 : utf8Encode p = utf8Encode q := by
    have := List.append_cancel_left h2
    simpa using this
  exact (utf8Encode_injective _ _ h3).symm

theorem bcryptHashString_salt_inj (cost : Int) (s1 s2 : List Nat) (password : String)
    (h1 : ∀ b ∈ s1, b < 256) (h2 : ∀ b ∈ s2, b < 256)
    (h : bcryptHashString cost s1 password = bcryptHashString cost s2 password) : s1 = s2 := by
  have hl : (bcryptHashString cost s1 password).toList =
      (bcryptHashString cost s2 password).toList := by rw [h]
  have hsplit : splitDollars (bcryptHashString cost s1 password).toList =
      splitDollars (bcryptHashString cost s2 password).toList := by rw [hl]
  rw [splitDollars_bcryptHashString cost s1 password h1,
    splitDollars_bcryptHashString cost s2 password h2] at hsplit
  have hcomp : hexOfBytes s1 = hexOfBytes s2 := by
    have := congrArg (fun l => l.getD 3 []) hsplit
    simpa using this
  exact hexOfBytes_injOn s1 s2 h1 h2 hcomp

theorem envelope_length (level : Nat) (nonce tag ct : List Nat)
    (hn : nonce.length = 12) (ht : tag.length = 16) :
    (level :: nonce ++ tag ++ ct).length = 29 + ct.length := by
  simp [hn, ht]
  omega

theorem envelope_bytes_lt (level : Nat) (nonce tag ct : List Nat) (hl : level < 256)
    (hnb : ∀ b ∈ nonce, b < 256) (htb : ∀ b ∈ tag, b < 256) (hcb : ∀ b ∈ ct, b < 256) :
    ∀ b ∈ level :: nonce ++ tag ++ ct, b < 256 := by
  intro b hb
  rcases List.mem_cons.mp hb with hb1 | hb2
  · rw [hb1]; exact hl
  · rcases List.mem_append.mp hb2 with h | h
    · rcases List.mem_append.mp h with h2 | h2
      · exact hnb b h2
      · exact htb b h2
    · exact hcb b h

theorem envelope_head (level : Nat) (nonce tag ct : List Nat) :
    (level :: nonce ++ tag ++ ct).headD 0 = level := rfl

theorem envelope_iv (level : Nat) (nonce tag ct : List Nat) (hn : nonce.length = 12) :
    ((level :: nonce ++ tag ++ ct).drop 1).take 12 = nonce := by
  rw [show (level :: nonce ++ tag ++ ct).drop 1 = nonce ++ (tag ++ ct) by simp]
  exact List.take_left' hn

theorem envelope_tag (level : Nat) (nonce tag ct : List Nat)
    (hn : nonce.length = 12) (ht : tag.length = 16) :
    ((level :: nonce ++ tag ++ ct).drop 13).take 16 = tag := by
  rw [show (level :: nonce ++ tag ++ ct).drop 13 = (nonce ++ (tag ++ ct)).drop 12 by simp]
  rw [List.drop_left' hn]
  exact List.take_left' ht

theorem envelope_ct (level : Nat) (nonce tag ct : List Nat)
    (hn : nonce.length = 12) (ht : tag.length = 16) :
    (level :: nonce ++ tag ++ ct).drop 29 = ct := by
  rw [show (level :: nonce ++ tag ++ ct).drop 29 = (nonce ++ (tag ++ ct)).drop 28 by simp]
  rw [show (28 : Nat) = 12 + 16 by rfl, ← List.drop_drop]
  rw [List.drop_left' hn, List.drop_left' ht]

theorem fromCipherData_encode (cfg : CryptConfig) (level : Nat) (nonce tag ct : List Nat)
    (hl : level < 256) (hn : nonce.length = 12) (ht : tag.length = 16)
    (hnb : ∀ b ∈ nonce, b < 256) (htb : ∀ b ∈ tag, b < 256) (hcb : ∀ b ∈ ct, b < 256) :
    fromCipherData cfg (base64Encode (level :: nonce ++ tag ++ ct)) =
      match gcmDecrypt (getPiiKey cfg (Int.ofNat level)) nonce tag ct with
      | some pt => Except.ok (String.mk (utf8Decode pt))
      | none => Except.error "Failed to decrypt data" := by
  simp only [fromCipherData]
  rw [base64Decode_encode _ (envelope_bytes_lt level nonce tag ct hl hnb htb hcb)]
  rw [envelope_length level nonce tag ct hn ht]
  rw [if_neg (by omega)]
  rw [envelope_head, envelope_iv level nonce tag ct hn,
    envelope_tag level nonce tag ct hn ht, envelope_ct level nonce tag ct hn ht]

theorem getD_mem_of_lt (l : List Nat) (n d : Nat) (h : n < l.length) : l.getD n d ∈ l := by
  rw [List.getD_eq_getElem l d h]
  exact List.getElem_mem h

theorem set_ne_of_getD (l : List Nat) (j b : Nat) (hj : j < l.length) (hne : b ≠ l.getD j 0) :
    l.set j b ≠ l := by
  intro h
  apply hne
  have h2 := congrArg (fun x => x.getD j 0) h
  simp only at h2
  rw [← h2, List.getD_eq_getElem _ 0 (by rw [List.length_set]; exact hj),
    List.getElem_set_self]

theorem sum_set_shift (l : List Nat) : ∀ (j b : Nat), j < l.length →
    (l.set j b).sum + l.getD j 0 = l.sum + b := by
  induction l with
  | nil => intro j b h; simp at h
  | cons a rest ih =>
      intro j b h
      cases j with
      | zero => simp [List.set]; omega
      | succ j' =>
          rw [List.set_cons_succ, List.sum_cons, List.sum_cons, List.getD_cons_succ]
          have := ih j' b (by simp at h; omega)
          omega

theorem gcmTagModel_set_ne (key iv ct : List Nat) (j b : Nat) (hj : j < ct.length)
    (hb : b < 256) (hcb : ∀ x ∈ ct, x < 256) (hne : b ≠ ct.getD j 0) :
    gcmTagModel key iv (ct.set j b) ≠ gcmTagModel key iv ct := by
  intro h
  have hhead := congrArg (fun l => l.headD 0) h
  simp only [gcmTagModel, List.headD_cons] at hhead
  have hlen : (ct.set j b).length = ct.length := List.length_set ct j b
  have hsum := sum_set_shift ct j b hj
  have hold : ct.getD j 0 < 256 := hcb _ (getD_mem_of_lt ct j 0 hj)
  rw [hlen] at hhead
  omega

theorem payload_set_form (lv : Nat) (nonce tag ct : List Nat)
    (hn : nonce.length = 12) (ht : tag.length = 16) (i b : Nat) (h13 : 13 ≤ i) :
    (lv :: nonce ++ tag ++ ct).set i b =
      if i < 29 then lv :: nonce ++ tag.set (i - 13) b ++ ct
      else lv :: nonce ++ tag ++ ct.set (i - 29) b := by
  rw [List.set_append]
  rw [show ((lv :: nonce ++ tag : List Nat)).length = 29 by simp [hn, ht]]
  by_cases h29 : i < 29
  · rw [if_pos h29, if_pos h29]
    rw [List.set_append]
    rw [show ((lv :: nonce : List Nat)).length = 13 by simp [hn]]
    rw [if_neg (by omega)]
  · rw [if_neg h29, if_neg h29]

theorem payload_getD (lv : Nat) (nonce tag ct : List Nat)
    (hn : nonce.length = 12) (ht : tag.length = 16) (i : Nat) (h13 : 13 ≤ i) :
    (lv :: nonce ++ tag ++ ct).getD i 0 =
      if i < 29 then tag.getD (i - 13) 0 else ct.getD (i - 29) 0 := by
  by_cases h29 : i < 29
  · rw [if_pos h29]
    rw [List.getD_append _ _ _ _ (by simp [hn, ht]; omega)]
    rw [List.getD_append_right _ _ _ _ (by simp [hn]; omega)]
    rw [show ((lv :: nonce : List Nat)).length = 13 by simp [hn]]
  · rw [if_neg h29]
    rw [List.getD_append_right _ _ _ _ (by simp [hn, ht]; omega)]
    rw [show ((lv :: nonce ++ tag : List Nat)).length = 29 by simp [hn, ht]]

theorem validation_eq_ok_iff (cfg : CryptConfig) :
    validation cfg = .ok () ↔
      (10 ≤ cfg.SALT_ROUND ∧ 1 ≤ cfg.PII_ACTIVE ∧ cfg.PII_ACTIVE ≤ 255 ∧
        16 ≤ cfg.MASTER_KEY.length ∧ cfg.DERIVE_KEY.length ≠ 0 ∧
        8 ≤ cfg.PII_SECRET.length ∧ 8 ≤ cfg.HMAC_SECRET.length ∧
        ¬ cfg.MASTER_KEY.all (fun byte => byte == 0) = true ∧
        ¬ cfg.DERIVE_KEY.all (fun byte => byte == 0) = true ∧
        ¬ cfg.PII_SECRET.all (fun byte => byte == 0) = true ∧
        ¬ cfg.HMAC_SECRET.all (fun byte => byte == 0) = true) := by
  constructor
  · intro h
    simp only [validation] at h
    split_ifs at h with h1 h2 h3 h4 h5 h6
    by_cases g1 : cfg.MASTER_KEY.length = 0 ∨ cfg.MASTER_KEY.all (fun byte => byte == 0) = true
    · rw [validateHexBuffer, if_pos g1] at h
      simp at h
    · rw [validateHexBuffer, if_neg g1] at h
      by_cases g2 : cfg.DERIVE_KEY.length = 0 ∨ cfg.DERIVE_KEY.all (fun byte => byte == 0) = true
      · rw [validateHexBuffer, if_pos g2] at h
        simp at h
      · rw [validateHexBuffer, if_neg g2] at h
        by_cases g3 : cfg.PII_SECRET.length = 0 ∨ cfg.PII_SECRET.all (fun byte => byte == 0) = true
        · rw [validateHexBuffer, if_pos g3] at h
          simp at h
        · rw [validateHexBuffer, if_neg g3] at h
          by_cases g4 : cfg.HMAC_SECRET.length = 0 ∨ cfg.HMAC_SECRET.all (fun byte => byte == 0) = true
          · rw [validateHexBuffer, if_pos g4] at h
            simp at h
          · push_neg at g1 g2 g3 g4
            refine ⟨by omega, by omega, by omega, by omega, by omega, by omega, by omega,
              g1.2, g2.2, g3.2, g4.2⟩
  · rintro ⟨p1, p2, p3, p4, p5, p6, p7, p8, p9, p10, p11⟩
    simp only [validation]
    rw [if_neg (by omega), if_neg (by omega), if_neg (by omega), if_neg (by omega),
      if_neg (by omega), if_neg (by omega)]
    rw [validateHexBuffer, if_neg (by push_neg; exact ⟨by omega, p8⟩)]
    rw [validateHexBuffer, if_neg (by push_neg; exact ⟨by omega, p9⟩)]
    rw [validateHexBuffer, if_neg (by push_neg; exact ⟨by omega, p10⟩)]
    rw [validateHexBuffer, if_neg (by push_neg; exact ⟨by omega, p11⟩)]

theorem validation_pii_bounds (cfg : CryptConfig) (h : validation cfg = .ok ()) :
    1 ≤ cfg.PII_ACTIVE ∧ cfg.PII_ACTIVE ≤ 255 := by
  have := (validation_eq_ok_iff cfg).mp h
  exact ⟨this.2.1, this.2.2.1⟩

theorem toCipherData_eq (cfg : CryptConfig) (nonce : List Nat) (value : String)
    (hlen : jsLength value ≤ 10000) :
    toCipherData cfg nonce value = .ok (base64Encode
      ((cfg.PII_ACTIVE % 256).toNat :: nonce ++
        gcmTagModel (getPiiKey cfg cfg.PII_ACTIVE) nonce
          (gcmEncBytes (getPiiKey cfg cfg.PII_ACTIVE) nonce 0
            (utf8Encode (normalizeJs value))) ++
        gcmEncBytes (getPiiKey cfg cfg.PII_ACTIVE) nonce 0
          (utf8Encode (normalizeJs value)))) := by
  simp only [toCipherData]
  rw [if_neg (by omega)]

theorem getPiiKey_same_secrets (cfg cfg2 : CryptConfig) (v : Int)
    (hm : cfg2.MASTER_KEY = cfg.MASTER_KEY) (hd : cfg2.DERIVE_KEY = cfg.DERIVE_KEY)
    (hp : cfg2.PII_SECRET = cfg.PII_SECRET) :
    getPiiKey cfg2 v = getPiiKey cfg v := by
  simp only [getPiiKey, derive32, hm, hd, hp]

theorem utf8Encode_lt (s : String) : ∀ b ∈ utf8Encode s, b < 256 :=
  utf8EncodeList_lt s.toList

theorem int_ofNat_mod256_toNat (v : Int) (h1 : 1 ≤ v) (h2 : v ≤ 255) :
    Int.ofNat ((v % 256).toNat) = v := by
  simp only [Int.ofNat_eq_coe]
  omega

theorem fromCipherData_after_toCipherData (cfg cfg2 : CryptConfig)
    (hm : cfg2.MASTER_KEY = cfg.MASTER_KEY) (hd : cfg2.DERIVE_KEY = cfg.DERIVE_KEY)
    (hp : cfg2.PII_SECRET = cfg.PII_SECRET)
    (hact1 : 1 ≤ cfg.PII_ACTIVE) (hact2 : cfg.PII_ACTIVE ≤ 255)
    (nonce : List Nat) (hn : nonce.length = 12) (hnb : ∀ b ∈ nonce, b < 256)
    (value : String) (hlen : jsLength value ≤ 10000) (e : String)
    (he : toCipherData cfg nonce value = .ok e) :
    fromCipherData cfg2 e = .ok (normalizeJs value) := by
  rw [toCipherData_eq cfg nonce value hlen] at he
  simp only [Except.ok.injEq] at he
  subst he
  rw [fromCipherData_encode cfg2 ((cfg.PII_ACTIVE % 256).toNat) nonce _ _
    (by omega) hn (gcmTagModel_length _ _ _) hnb (gcmTagModel_lt _ _ _)
    (gcmEncBytes_lt _ _ _ _)]
  rw [getPiiKey_same_secrets cfg cfg2 _ hm hd hp,
    int_ofNat_mod256_toNat cfg.PII_ACTIVE hact1 hact2]
  rw [gcmDecrypt, if_pos rfl]
  have hdec := gcmDecBytes_encBytes (getPiiKey cfg cfg.PII_ACTIVE) nonce 0
    (utf8Encode (normalizeJs value)) (utf8Encode_lt _)
  simp only [hdec, utf8Decode_encode]

theorem mem_set_lt (l : List Nat) (j b : Nat) (hb : b < 256) (hl : ∀ x ∈ l, x < 256) :
    ∀ x ∈ l.set j b, x < 256 := by
  intro x hx
  rcases List.mem_or_eq_of_mem_set hx with h | h
  · exact hl x h
  · omega

/-- Rebuild a service configuration with a different active PII version but
the same master key, derivation salt and purpose secrets — the rotation
scenario of the specification. -/
def withPiiActive (cfg : CryptConfig) (v : Int) : CryptConfig :=
  ⟨cfg.MASTER_KEY, cfg.DERIVE_KEY, cfg.SALT_ROUND, cfg.PII_SECRET, v, cfg.HMAC_SECRET⟩

/-- A concrete valid configuration used by the witnesses. -/
def cfg0 : CryptConfig :=
  ⟨List.replicate 16 1, [2], 10, List.replicate 8 3, 1, List.replicate 8 4⟩

/-- A concrete 12-byte nonce for the witnesses. -/
def nonce0 : List Nat := [0, 1, 2, 3, 4, 5, 6, 7, 8, 9, 10, 11]

/-- A second, distinct concrete 12-byte nonce. -/
def nonceAlt : List Nat := [99, 1, 2, 3, 4, 5, 6, 7, 8, 9, 10, 11]

/-- The envelope the modelled service produces for the specification's
example input under `cfg0` and `nonce0`. -/
def envelope0 : String :=
  match toCipherData cfg0 nonce0 "  Jane@Example.com " with
  | .ok e => e
  | .error _ => ""

/-- C1: for every string of length at most 10,000 characters, decrypting the
envelope produced by `toCipherData` yields the normalized form of the input
— `fromCipherData (toCipherData s) = lowercase (trim s)` — not the original
string. -/
theorem c1_roundtrip_normalizes (cfg : CryptConfig) (nonce : List Nat) (value e : String)
    (hval : validation cfg = .ok ()) (hn : nonce.length = 12)
    (hnb : ∀ b ∈ nonce, b < 256) (hlen : jsLength value ≤ 10000)
    (he : toCipherData cfg nonce value = .ok e) :
    fromCipherData cfg e = .ok (jsToLower (jsTrim value)) := by
  have hb := validation_pii_bounds cfg hval
  exact fromCipherData_after_toCipherData cfg cfg rfl rfl rfl hb.1 hb.2
    nonce hn hnb value hlen e he

/-- Witness for C1 at the specification's example: encrypting
`"  Jane@Example.com "` and decrypting yields `"jane@example.com"`. -/
theorem c1_roundtrip_normalizes_witness :
    fromCipherData cfg0 envelope0 = .ok "jane@example.com" := by
  have h := c1_roundtrip_normalizes cfg0 nonce0 "  Jane@Example.com " envelope0
    (by rfl) (by decide) (by decide) (by decide) (by rfl)
  rw [h]
  rfl

/-- C4: with the same master key, derivation salt and PII secret but a
different active version `v2` in 1–255, an envelope encrypted under the old
configuration still decrypts to the normalized plaintext under the rotated
configuration (the key is selected from the envelope's first byte alone),
and every envelope the rotated instance produces carries first decoded byte
`v2`. -/
theorem c4_version_rotation (cfg : CryptConfig) (v2 : Int) (nonce nonce2 : List Nat)
    (value e e2 : String)
    (hval : validation cfg = .ok ()) (hv1 : 1 ≤ v2) (hv255 : v2 ≤ 255)
    (hvne : v2 ≠ cfg.PII_ACTIVE)
    (hn : nonce.length = 12) (hnb : ∀ b ∈ nonce, b < 256)
    (hn2 : nonce2.length = 12) (hn2b : ∀ b ∈ nonce2, b < 256)
    (hlen : jsLength value ≤ 10000)
    (he : toCipherData cfg nonce value = .ok e)
    (he2 : toCipherData (withPiiActive cfg v2) nonce2 value = .ok e2) :
    fromCipherData (withPiiActive cfg v2) e = .ok (jsToLower (jsTrim value)) ∧
      (base64Decode e2).headD 0 = v2.toNat := by
  have hb := validation_pii_bounds cfg hval
  constructor
  · exact fromCipherData_after_toCipherData cfg (withPiiActive cfg v2) rfl rfl rfl
      hb.1 hb.2 nonce hn hnb value hlen e he
  · rw [toCipherData_eq _ nonce2 value hlen] at he2
    simp only [Except.ok.injEq] at he2
    subst he2
    have hlv : ((withPiiActive cfg v2).PII_ACTIVE % 256).toNat < 256 := by
      simp only [withPiiActive]
      omega
    rw [base64Decode_encode _ (envelope_bytes_lt _ _ _ _ hlv hn2b
      (gcmTagModel_lt _ _ _) (gcmEncBytes_lt _ _ _ _))]
    rw [envelope_head]
    simp only [withPiiActive]
    omega

/-- Envelope produced by the rotated (version 2) instance for the example
input, used by the C4 witness. -/
def envelope2 : String :=
  match toCipherData (withPiiActive cfg0 2) nonceAlt "  Jane@Example.com " with
  | .ok e => e
  | .error _ => ""

/-- Witness for C4: the version-1 envelope decrypts under the rotated
version-2 configuration and the version-2 envelope starts with byte 2. -/
theorem c4_version_rotation_witness :
    fromCipherData (withPiiActive cfg0 2) envelope0 = .ok "jane@example.com" ∧
      (base64Decode envelope2).headD 0 = 2 := by
  have h := c4_version_rotation cfg0 2 nonce0 nonceAlt "  Jane@Example.com "
    envelope0 envelope2 (by rfl) (by decide) (by decide) (by decide) (by decide)
    (by decide) (by decide) (by decide) (by decide) (by rfl) (by rfl)
  refine ⟨?_, h.2⟩
  rw [h.1]
  rfl

/-- C5: the lookup index is deterministic and normalization-invariant —
inputs with the same trimmed lower-cased form get the identical digest —
while encrypting the same input under two distinct fresh nonces produces two
different envelopes. -/
theorem c5_index_deterministic_cipher_randomized (cfg : CryptConfig) (s t : String)
    (n1 n2 : List Nat)
    (hs : jsLength s ≤ 10000) (ht : jsLength t ≤ 10000)
    (hnorm : jsToLower (jsTrim s) = jsToLower (jsTrim t))
    (h1 : n1.length = 12) (h1b : ∀ b ∈ n1, b < 256)
    (h2 : n2.length = 12) (h2b : ∀ b ∈ n2, b < 256) (hne : n1 ≠ n2) :
    toIndexableData cfg s = toIndexableData cfg t ∧
      toCipherData cfg n1 s ≠ toCipherData cfg n2 s := by
  constructor
  · simp only [toIndexableData]
    rw [if_neg (by omega), if_neg (by omega)]
    rw [show normalizeJs s = normalizeJs t from hnorm]
  · intro h
    rw [toCipherData_eq cfg n1 s hs, toCipherData_eq cfg n2 s hs] at h
    simp only [Except.ok.injEq] at h
    have hlv := int_mod256_toNat_lt cfg.PII_ACTIVE
    have hp := base64Encode_injOn _ _
      (envelope_bytes_lt _ _ _ _ hlv h1b (gcmTagModel_lt _ _ _) (gcmEncBytes_lt _ _ _ _))
      (envelope_bytes_lt _ _ _ _ hlv h2b (gcmTagModel_lt _ _ _) (gcmEncBytes_lt _ _ _ _)) h
    apply hne
    have hiv1 := envelope_iv ((cfg.PII_ACTIVE % 256).toNat) n1
      (gcmTagModel (getPiiKey cfg cfg.PII_ACTIVE) n1
        (gcmEncBytes (getPiiKey cfg cfg.PII_ACTIVE) n1 0 (utf8Encode (normalizeJs s))))
      (gcmEncBytes (getPiiKey cfg cfg.PII_ACTIVE) n1 0 (utf8Encode (normalizeJs s))) h1
    have hiv2 := envelope_iv ((cfg.PII_ACTIVE % 256).toNat) n2
      (gcmTagModel (getPiiKey cfg cfg.PII_ACTIVE) n2
        (gcmEncBytes (getPiiKey cfg cfg.PII_ACTIVE) n2 0 (utf8Encode (normalizeJs s))))
      (gcmEncBytes (getPiiKey cfg cfg.PII_ACTIVE) n2 0 (utf8Encode (normalizeJs s))) h2
    rw [← hiv1, ← hiv2, hp]

/-- Witness for C5 at the specification's example:
`lookupIndex("Foo@Bar.com") = lookupIndex("foo@bar.com ")`, and two distinct
nonces give two different envelopes for the same input. -/
theorem c5_index_deterministic_cipher_randomized_witness :
    toIndexableData cfg0 "Foo@Bar.com" = toIndexableData cfg0 "foo@bar.com " ∧
      toCipherData cfg0 nonce0 "Foo@Bar.com" ≠ toCipherData cfg0 nonceAlt "Foo@Bar.com" :=
  c5_index_deterministic_cipher_randomized cfg0 "Foo@Bar.com" "foo@bar.com "
    nonce0 nonceAlt (by decide) (by decide) (by decide) (by decide) (by decide)
    (by decide) (by decide) (by decide)

/-- C6: the lookup-hash key is derived from the HMAC secret alone, so the
lookup index is identical for two instances that differ only in the active
PII version. -/
theorem c6_lookup_version_independent (cfg : CryptConfig) (v2 : Int) (value : String)
    (hlen : jsLength value ≤ 10000) :
    toIndexableData (withPiiActive cfg v2) value = toIndexableData cfg value := rfl

/-- Witness for C6 at a concrete configuration, rotated version and input. -/
theorem c6_lookup_version_independent_witness :
    toIndexableData (withPiiActive cfg0 7) "user@example.com" =
      toIndexableData cfg0 "user@example.com" :=
  c6_lookup_version_independent cfg0 7 "user@example.com" (by decide)

/-- C7: an input of exactly 10,000 UTF-16 units passes the guard of both
`toIndexableData` and `toCipherData`, while any longer input makes both
return the `InputTooLarge` error before any cryptographic computation. -/
theorem c7_length_guard (cfg : CryptConfig) (nonce : List Nat) (s t : String)
    (hs : jsLength s = 10000) (ht : jsLength t > 10000) :
    (∃ d, toIndexableData cfg s = .ok d) ∧ (∃ e, toCipherData cfg nonce s = .ok e) ∧
      toIndexableData cfg t = .error "Input exceeds maximum allowed length" ∧
      toCipherData cfg nonce t = .error "Input exceeds maximum allowed length" := by
  refine ⟨⟨hmacHexModel (getHmacKey cfg) (utf8Encode (normalizeJs s)), ?_⟩,
    ⟨_, toCipherData_eq cfg nonce s (by omega)⟩, ?_, ?_⟩
  · simp only [toIndexableData]
    rw [if_neg (by omega)]
  · simp only [toIndexableData]
    rw [if_pos (by omega)]
  · simp only [toCipherData]
    rw [if_pos (by omega)]

theorem jsLength_replicate (n : Nat) : jsLength (String.mk (List.replicate n 'a')) = n := by
  simp [jsLength, List.map_replicate, List.sum_replicate, smul_eq_mul]

/-- Witness for C7 at the exact boundary lengths 10,000 and 10,001. -/
theorem c7_length_guard_witness :
    (∃ d, toIndexableData cfg0 (String.mk (List.replicate 10000 'a')) = .ok d) ∧
      (∃ e, toCipherData cfg0 nonce0 (String.mk (List.replicate 10000 'a')) = .ok e) ∧
      toIndexableData cfg0 (String.mk (List.replicate 10001 'a')) =
        .error "Input exceeds maximum allowed length" ∧
      toCipherData cfg0 nonce0 (String.mk (List.replicate 10001 'a')) =
        .error "Input exceeds maximum allowed length" :=
  c7_length_guard cfg0 nonce0 (String.mk (List.replicate 10000 'a'))
    (String.mk (List.replicate 10001 'a'))
    (by rw [jsLength_replicate]) (by rw [jsLength_replicate]; omega)

/-- C2: flipping any single byte of a valid envelope's authentication-tag
region (decoded bytes 13–28) or ciphertext region (decoded bytes 29 onward)
makes `fromCipherData` return the decryption-failure error; corrupted
plaintext is never released. -/
theorem c2_tamper_detection (cfg : CryptConfig) (nonce : List Nat) (value e : String)
    (i b : Nat)
    (hval : validation cfg = .ok ()) (hn : nonce.length = 12)
    (hnb : ∀ x ∈ nonce, x < 256) (hlen : jsLength value ≤ 10000)
    (he : toCipherData cfg nonce value = .ok e)
    (hi13 : 13 ≤ i) (hilen : i < (base64Decode e).length)
    (hb : b < 256) (hne : b ≠ (base64Decode e).getD i 0) :
    fromCipherData cfg (base64Encode ((base64Decode e).set i b)) =
      .error "Failed to decrypt data" := by
  have hact := validation_pii_bounds cfg hval
  rw [toCipherData_eq cfg nonce value hlen] at he
  simp only [Except.ok.injEq] at he
  subst he
  have hlv := int_mod256_toNat_lt cfg.PII_ACTIVE
  rw [base64Decode_encode _ (envelope_bytes_lt _ _ _ _ hlv hnb
    (gcmTagModel_lt _ _ _) (gcmEncBytes_lt _ _ _ _))] at hilen hne ⊢
  rw [payload_set_form _ _ _ _ hn (gcmTagModel_length _ _ _) i b hi13]
  rw [payload_getD _ _ _ _ hn (gcmTagModel_length _ _ _) i hi13] at hne
  rw [envelope_length _ _ _ _ hn (gcmTagModel_length _ _ _)] at hilen
  by_cases h29 : i < 29
  · rw [if_pos h29]
    rw [if_pos h29] at hne
    rw [fromCipherData_encode cfg _ nonce _ _ hlv hn
      (by rw [List.length_set]; exact gcmTagModel_length _ _ _) hnb
      (mem_set_lt _ _ _ hb (gcmTagModel_lt _ _ _)) (gcmEncBytes_lt _ _ _ _)]
    rw [int_ofNat_mod256_toNat cfg.PII_ACTIVE hact.1 hact.2]
    rw [gcmDecrypt, if_neg (set_ne_of_getD _ (i - 13) b
      (by rw [gcmTagModel_length]; omega) hne)]
  · rw [if_neg h29]
    rw [if_neg h29] at hne
    rw [fromCipherData_encode cfg _ nonce _ _ hlv hn (gcmTagModel_length _ _ _) hnb
      (gcmTagModel_lt _ _ _) (mem_set_lt _ _ _ hb (gcmEncBytes_lt _ _ _ _))]
    rw [int_ofNat_mod256_toNat cfg.PII_ACTIVE hact.1 hact.2]
    have hj : i - 29 < (gcmEncBytes (getPiiKey cfg cfg.PII_ACTIVE) nonce 0
        (utf8Encode (normalizeJs value))).length := by omega
    rw [gcmDecrypt, if_neg (fun hq => (gcmTagModel_set_ne _ _ _ (i - 29) b hj hb
      (gcmEncBytes_lt _ _ _ _) hne) hq.symm)]

/-- A byte value guaranteed to differ from byte 13 (first tag byte) of the
witness envelope. -/
def tampered13 : Nat := ((base64Decode envelope0).getD 13 0 + 1) % 256

set_option maxRecDepth 100000

/-- Witness for C2: flipping decoded byte 13 of a concrete valid envelope
makes decryption fail. -/
theorem c2_tamper_detection_witness :
    fromCipherData cfg0 (base64Encode ((base64Decode envelope0).set 13 tampered13)) =
      .error "Failed to decrypt data" :=
  c2_tamper_detection cfg0 nonce0 "  Jane@Example.com " envelope0 13 tampered13
    (by rfl) (by decide) (by decide) (by decide) (by rfl)
    (by decide) (by decide) (by decide) (by decide)

/-- Counterexample for C3 as stated: `fromCipherData` does not collapse
every failure into one single error — a too-short buffer raises
`"Invalid cipher data"` while an authentication failure raises
`"Failed to decrypt data"`, so the error does distinguish which step
failed. -/
theorem c3_single_error_counterexample :
    fromCipherData cfg0 "" = .error "Invalid cipher data" ∧
      fromCipherData cfg0 (base64Encode (List.replicate 29 0)) =
        .error "Failed to decrypt data" ∧
      "Invalid cipher data" ≠ "Failed to decrypt data" :=
  ⟨by rfl, by rfl, by decide⟩

/-- C3 amended: decryption failures collapse into exactly two generic
errors — a decoded buffer shorter than the 29-byte minimum (including any
input whose lenient base64 decoding is that short) yields
`"Invalid cipher data"`, and every failure of the decryption stage itself
(key selection, tag verification, decrypt exception) yields the single
`"Failed to decrypt data"`; no further distinction ever reaches the
caller and corrupted plaintext is never returned. -/
theorem c3_two_generic_errors (cfg : CryptConfig) (s : String) :
    ((base64Decode s).length < 29 → fromCipherData cfg s = .error "Invalid cipher data") ∧
      (29 ≤ (base64Decode s).length →
        (∃ p, fromCipherData cfg s = .ok p) ∨
          fromCipherData cfg s = .error "Failed to decrypt data") := by
  constructor
  · intro h
    simp only [fromCipherData]
    rw [if_pos h]
  · intro h
    simp only [fromCipherData]
    rw [if_neg (by omega)]
    rcases hq : gcmDecrypt (getPiiKey cfg (Int.ofNat ((base64Decode s).headD 0)))
        (((base64Decode s).drop 1).take 12) (((base64Decode s).drop 13).take 16)
        ((base64Decode s).drop 29) with _ | pt
    · right
      rfl
    · left
      exact ⟨String.mk (utf8Decode pt), rfl⟩

/-- Witness for the amended C3 at two concrete inputs, one on each side of
the length check. -/
theorem c3_two_generic_errors_witness :
    fromCipherData cfg0 "" = .error "Invalid cipher data" ∧
      ((∃ p, fromCipherData cfg0 (base64Encode (List.replicate 29 1)) = .ok p) ∨
        fromCipherData cfg0 (base64Encode (List.replicate 29 1)) =
          .error "Failed to decrypt data") :=
  ⟨(c3_two_generic_errors cfg0 "").1 (by decide),
    (c3_two_generic_errors cfg0 (base64Encode (List.replicate 29 1))).2 (by decide)⟩

/-- C8: constructing the service succeeds exactly when the configuration is
valid — work factor at least 10, active version in 1–255, master key at
least 16 bytes, non-empty derivation salt, purpose secrets at least 8 bytes,
and none of the four secret buffers all-zero; any violation makes
construction fail before any crypto operation is possible. -/
theorem c8_construction_validation (cfg : CryptConfig) :
    validation cfg = .ok () ↔
      (10 ≤ cfg.SALT_ROUND ∧ 1 ≤ cfg.PII_ACTIVE ∧ cfg.PII_ACTIVE ≤ 255 ∧
        16 ≤ cfg.MASTER_KEY.length ∧ cfg.DERIVE_KEY.length ≠ 0 ∧
        8 ≤ cfg.PII_SECRET.length ∧ 8 ≤ cfg.HMAC_SECRET.length ∧
        ¬ cfg.MASTER_KEY.all (fun byte => byte == 0) = true ∧
        ¬ cfg.DERIVE_KEY.all (fun byte => byte == 0) = true ∧
        ¬ cfg.PII_SECRET.all (fun byte => byte == 0) = true ∧
        ¬ cfg.HMAC_SECRET.all (fun byte => byte == 0) = true) :=
  validation_eq_ok_iff cfg

/-- C9: password verification succeeds for the hashed password, fails (with
`false`, never an exception) for any different password, and two hashes of
the same password under distinct fresh salts are different strings that both
verify; the password is used exactly as given, with no trim or lowercase. -/
theorem c9_password_hash_verify (cfg : CryptConfig) (salt salt2 : List Nat) (p q : String)
    (hs : ∀ x ∈ salt, x < 256) (hs2 : ∀ x ∈ salt2, x < 256)
    (hsne : salt2 ≠ salt) (hqp : q ≠ p) :
    toHash cfg salt p = .ok (bcryptHashString cfg.SALT_ROUND salt p) ∧
      compareHash p (bcryptHashString cfg.SALT_ROUND salt p) = .ok true ∧
      compareHash q (bcryptHashString cfg.SALT_ROUND salt p) = .ok false ∧
      bcryptHashString cfg.SALT_ROUND salt2 p ≠ bcryptHashString cfg.SALT_ROUND salt p ∧
      compareHash p (bcryptHashString cfg.SALT_ROUND salt2 p) = .ok true := by
  refine ⟨rfl, ?_, ?_, ?_, ?_⟩
  · simp only [compareHash, bcryptCompare_correct cfg.SALT_ROUND salt p hs]
  · simp only [compareHash, bcryptCompare_wrong cfg.SALT_ROUND salt p q hs hqp]
  · intro h
    exact hsne (bcryptHashString_salt_inj cfg.SALT_ROUND salt2 salt p hs2 hs h)
  · simp only [compareHash, bcryptCompare_correct cfg.SALT_ROUND salt2 p hs2]

/-- Witness for C9 with two concrete distinct salts and the passwords
`"secret"` and `"Secret "` (whose difference is case and whitespace only,
exercising the no-normalization behaviour). -/
theorem c9_password_hash_verify_witness :
    toHash cfg0 (List.replicate 16 5) "secret" =
        .ok (bcryptHashString cfg0.SALT_ROUND (List.replicate 16 5) "secret") ∧
      compareHash "secret"
        (bcryptHashString cfg0.SALT_ROUND (List.replicate 16 5) "secret") = .ok true ∧
      compareHash "Secret "
        (bcryptHashString cfg0.SALT_ROUND (List.replicate 16 5) "secret") = .ok false ∧
      bcryptHashString cfg0.SALT_ROUND (List.replicate 16 6) "secret" ≠
        bcryptHashString cfg0.SALT_ROUND (List.replicate 16 5) "secret" ∧
      compareHash "secret"
        (bcryptHashString cfg0.SALT_ROUND (List.replicate 16 6) "secret") = .ok true :=
  c9_password_hash_verify cfg0 (List.replicate 16 5) (List.replicate 16 6)
    "secret" "Secret " (by decide) (by decide) (by decide) (by decide)

/-- C10: the 10,000-character guard applies only to the PII paths — for a
password longer than the limit, `toHash` still resolves and `compareHash`
still returns a boolean, while `toIndexableData` and `toCipherData` raise
the `InputTooLarge` error. -/
theorem c10_no_password_length_guard (cfg : CryptConfig) (salt nonce : List Nat)
    (p : String) (hlen : jsLength p > 10000) :
    toHash cfg salt p = .ok (bcryptHashString cfg.SALT_ROUND salt p) ∧
      (∀ h : String, compareHash p h = .ok (bcryptCompare p h)) ∧
      toIndexableData cfg p = .error "Input exceeds maximum allowed length" ∧
      toCipherData cfg nonce p = .error "Input exceeds maximum allowed length" := by
  refine ⟨rfl, fun h => rfl, ?_, ?_⟩
  · simp only [toIndexableData]
    rw [if_pos (by omega)]
  · simp only [toCipherData]
    rw [if_pos (by omega)]

/-- Witness for C10 with a 10,001-character password. -/
theorem c10_no_password_length_guard_witness :
    toHash cfg0 (List.replicate 16 5) (String.mk (List.replicate 10001 'a')) =
        .ok (bcryptHashString cfg0.SALT_ROUND (List.replicate 16 5)
          (String.mk (List.replicate 10001 'a'))) ∧
      (∀ h : String, compareHash (String.mk (List.replicate 10001 'a')) h =
        .ok (bcryptCompare (String.mk (List.replicate 10001 'a')) h)) ∧
      toIndexableData cfg0 (String.mk (List.replicate 10001 'a')) =
        .error "Input exceeds maximum allowed length" ∧
      toCipherData cfg0 nonce0 (String.mk (List.replicate 10001 'a')) =
        .error "Input exceeds maximum allowed length" :=
  c10_no_password_length_guard cfg0 (List.replicate 16 5) nonce0
    (String.mk (List.replicate 10001 'a')) (by rw [jsLength_replicate]; omega)
